import Mathlib

/-!
Verification of the coordinate module `spectrochempy/core/dataset/ndcoords.py`
(classes `Coord` and `CoordRange`) against its specification.

Scalars (numpy floats) are modelled as rationals `ℚ`; all comparisons and
copies performed by the code are exact, so the model is faithful on every
input expressible as a rational.  A numpy buffer is modelled by its shape
together with its row-major flattened content.
-/

namespace SpChem

/-! ### The Coord data model -/

/-- State of a `Coord` object.  `Coord` inherits from `NDArray`
(`spectrochempy/core/dataset/ndarray.py`, not under `src/`); modelled from
the spec: an `NDArray` owns a raw numeric buffer (here: shape plus
row-major flattened content), optional labels, and a title. -/
structure Coord where
  _data_shape : List ℕ
  _data : List ℚ
  _labels : Option (List String)
  title : String
  deriving DecidableEq

/-- The overridden `Coord.ndim` property (ndcoords.py lines 167-169):
it returns `1` unconditionally, hiding `NDArray.ndim`. -/
def Coord.ndim (_ : Coord) : ℕ := 1

/-- What `NDArray.ndim` computes.  Modelled from the spec: the shape of an
`NDArray` is an "ordered tuple of positive integers (one per axis)", so the
number of dimensions is the length of the shape. -/
def Coord.ndarray_ndim (c : Coord) : ℕ := c._data_shape.length

/-- `NDArray.__init__`.  Modelled from the spec: `NDArray` is "created empty
or from raw array-like input"; it stores the given buffer (of any rank),
labels and title. -/
def ndarrayInit (shape : List ℕ) (buf : List ℚ) (labels : Option (List String))
    (title : String) : Coord :=
  ⟨shape, buf, labels, title⟩

/-- `Coord.__init__` (ndcoords.py lines 93-136): run `NDArray.__init__`
via `super()`, then check `if self.ndim > 1: raise ValueError(...)`.
In Python, `self.ndim` on a `Coord` instance resolves to the overridden
`Coord.ndim` property, not to `NDArray.ndim`. -/
def coordInit (shape : List ℕ) (buf : List ℚ) (labels : Option (List String))
    (title : String) : Except String Coord :=
  let c := ndarrayInit shape buf labels title
  if c.ndim > 1 then
    .error "Number of dimension for coordinates array should be 1!"
  else
    .ok c

/-- Python substring test `needle in hay` on strings (as character lists). -/
def py_in (needle hay : List Char) : Bool :=
  hay.tails.any (fun t => needle.isPrefixOf t)

/-- Python `str.lower()`, character by character. -/
def pyLower (s : String) : List Char := s.toList.map Char.toLower

/-- The comparison `bool(self.data[0] > self.data[-1])` appearing in the
last line of `Coord.is_reversed` (ndcoords.py line 156).  On an empty
buffer the Python line would raise; the statement is dead code (see
`C8_is_reversed_title_only`), so the chosen default never matters. -/
def dataDescending (c : Coord) : Bool :=
  match c._data.head?, c._data.getLast? with
  | some a, some b => decide (b < a)
  | _, _ => false

/-- The body of `Coord.is_reversed` (ndcoords.py lines 145-156) as its
sequence of return statements in source order: `none` means the statement
does not return, `some b` means it returns `b`.  The three statements are
`return True` (guarded by the title test), `return False`, and the trailing
`return bool(self.data[0] > self.data[-1])`. -/
def is_reversed_returns (c : Coord) : List (Option Bool) :=
  [ if py_in "wavenumber".toList (pyLower c.title)
       || py_in "ppm".toList (pyLower c.title) then some true else none,
    some false,
    some (dataDescending c) ]

/-- Execution of a straight-line body: the first executed `return` wins. -/
def firstReturn : List (Option Bool) → Option Bool
  | [] => none
  | some b :: _ => some b
  | none :: rest => firstReturn rest

/-- `Coord.is_reversed` (ndcoords.py lines 145-156). -/
def Coord.is_reversed (c : Coord) : Bool :=
  (firstReturn (is_reversed_returns c)).getD false

/-- `Coord.uncertainty` getter (ndcoords.py lines 171-173):
`np.zeros_like(self._data, dtype=float)` - an all-zeros array with the
shape of the data. -/
def Coord.uncertainty (c : Coord) : List ℕ × List ℚ :=
  (c._data_shape, c._data.map (fun _ => 0))

/-- `Coord.uncertainty` setter (ndcoords.py lines 175-177): the body is
`pass`, so the object is returned unchanged. -/
def Coord.uncertainty_set (c : Coord) (_u : List ℚ) : Coord := c

/-! ### Coord._loc2index -/

/-- A location argument to `Coord._loc2index`, discriminated as the code
does by `isinstance(loc, str)`, `isinstance(loc, datetime)` and
`is_number(loc)`.  `is_number` lives in `spectrochempy/utils` (not under
`src/`); modelled from the spec (section 4.2): locations are textual,
date/time, numeric, or unrecognized.  A datetime is carried as an opaque
timestamp. -/
inductive Loc where
  | str (s : String)
  | datetime (t : ℤ)
  | num (q : ℚ)
  | other
  deriving DecidableEq

/-- `np.argwhere(labels == loc).flatten()` followed by taking element 0:
the index of the first label equal to `s`, if any. -/
def argwhereFirst : List String → String → Option ℕ
  | [], _ => none
  | l :: rest, s =>
      if l = s then some 0 else (argwhereFirst rest s).map (· + 1)

/-- The minimum of `x :: rest` together with the index of its first
occurrence; `np.argmin` returns the first index attaining the minimum. -/
def minWithIdx : ℚ → List ℚ → ℚ × ℕ
  | x, [] => (x, 0)
  | x, y :: rest =>
      let mj := minWithIdx y rest
      if x ≤ mj.1 then (x, 0) else (mj.1, mj.2 + 1)

/-- `np.argmin` (first occurrence of the minimum; numpy returns 0 on an
empty array only after raising, the `[]` case is never used below). -/
def argmin : List ℚ → ℕ
  | [] => 0
  | x :: rest => (minWithIdx x rest).2

/-- `ndarray.max()`: the reduction `max` over the buffer; numpy raises
`ValueError` on an empty array, modelled as `none`. -/
def npMax : List ℚ → Option ℚ
  | [] => none
  | x :: rest => some (rest.foldl max x)

/-- `ndarray.min()`: the reduction `min` over the buffer; numpy raises
`ValueError` on an empty array, modelled as `none`. -/
def npMin : List ℚ → Option ℚ
  | [] => none
  | x :: rest => some (rest.foldl min x)

/-- `np.abs` on a scalar. -/
def npAbs (x : ℚ) : ℚ := if x < 0 then -x else x

/-- `Coord._loc2index` (ndcoords.py lines 191-223).  The result is either
an `IndexError` (`.error`), or the returned value together with a flag
telling whether a `SpectroChemPyWarning` was emitted.  The datetime branch
is the literal `return None  # TODO: date!` of line 210, hence `.ok (none,
false)`: no exception and no warning. -/
def _loc2index (c : Coord) (loc : Loc) : Except String (Option ℕ × Bool) :=
  match loc with
  | .str s =>
      match c._labels with
      | some labels =>
          match argwhereFirst labels s with
          | some i => .ok (some i, false)
          | none => .error ("Could not find this label: " ++ s)
      | none => .error ("Could not find this location: " ++ s)
  | .datetime _ => .ok (none, false)
  | .num q =>
      match npMax c._data, npMin c._data with
      | some mx, some mn =>
          .ok (some (argmin (c._data.map (fun x => npAbs (x - q)))),
               decide (q > mx) || decide (q < mn))
      | _, _ => .error "zero-size array to reduction operation"
  | .other => .error "Could not find this location"

/-! ### CoordRange -/

/-- Validation performed by the `Range` trait type on each pair assigned
through the `ranges = List(Range)` trait.  `Range` lives in
`spectrochempy/utils/traittypes.py`, not under `src/`; modelled from the
spec: "each pair is internally ordered" (ascending; the descending sense
is produced afterwards by `reverse()` when the `reversed` flag is set). -/
def rangeValidate (r : ℚ × ℚ) : ℚ × ℚ :=
  if r.1 ≤ r.2 then r else (r.2, r.1)

/-- An assignment `self.ranges = ...`: every element passes the `Range`
trait validation. -/
def traitAssign (l : List (ℚ × ℚ)) : List (ℚ × ℚ) := l.map rangeValidate

/-- The key of `sorted(ranges, key=lambda r: min(r[0], r[1]))`. -/
def rangeKey (r : ℚ × ℚ) : ℚ := min r.1 r.2

/-- The comparison `sorted` uses: smaller-or-equal key. -/
def keyLE (r s : ℚ × ℚ) : Prop := rangeKey r ≤ rangeKey s

instance : DecidableRel keyLE :=
  fun r s => inferInstanceAs (Decidable (rangeKey r ≤ rangeKey s))

instance : IsTotal (ℚ × ℚ) keyLE :=
  ⟨fun _ _ => le_total _ _⟩

instance : IsTrans (ℚ × ℚ) keyLE :=
  ⟨fun _ _ _ h h2 => le_trans h h2⟩

/-- `sorted(ranges, key=lambda r: min(r[0], r[1]))`.  Python `sorted` is a
stable sort; insertion sort with the non-strict key order is extensionally
the stable sort, so the model agrees with Python on every input. -/
def sortedByKey (l : List (ℚ × ℚ)) : List (ℚ × ℚ) :=
  List.insertionSort keyLE l

/-- The merge sweep of `CoordRange._cleanranges` (ndcoords.py lines
378-387).  `last` is `cleaned[-1]`, the only element the loop mutates;
closed intervals are emitted in front.  For each later pair `r`: if
`r[0] <= cleaned[-1][1]` then either extend the end to `r[1]` (when
`r[1] >= cleaned[-1][1]`) or drop `r`; otherwise append `r`. -/
def mergeSweep : ℚ × ℚ → List (ℚ × ℚ) → List (ℚ × ℚ)
  | last, [] => [last]
  | last, r :: rest =>
      if r.1 ≤ last.2 then
        if r.2 ≥ last.2 then mergeSweep (last.1, r.2) rest
        else mergeSweep last rest
      else
        last :: mergeSweep r rest

/-- `CoordRange._cleanranges` (ndcoords.py lines 356-387): sort the pairs
by their smaller endpoint, seed `cleaned = [ranges[0]]`, then sweep.
Indexing `ranges[0]` on an empty list raises `IndexError`, modelled as
`none`. -/
def _cleanranges (ranges : List (ℚ × ℚ)) : Option (List (ℚ × ℚ)) :=
  match sortedByKey ranges with
  | [] => none
  | r :: rest => some (mergeSweep r rest)

/-- State of a `CoordRange` object. -/
structure CoordRange where
  ranges : List (ℚ × ℚ)
  reversed : Bool
  deriving DecidableEq

/-- `CoordRange.nranges` (ndcoords.py lines 340-342). -/
def CoordRange.nranges (c : CoordRange) : ℕ := c.ranges.length

/-- In-place effect of `CoordRange.reverse` (ndcoords.py lines 346-352)
on the ranges list: `for range in self.ranges: range.reverse()` then
`self.ranges.reverse()`.  Both are in-place list mutations, so no trait
validation runs. -/
def rangesReversed (l : List (ℚ × ℚ)) : List (ℚ × ℚ) :=
  (l.map (fun r => (r.2, r.1))).reverse

/-- `CoordRange.reverse` (ndcoords.py lines 346-352). -/
def CoordRange.reverse (c : CoordRange) : CoordRange :=
  { c with ranges := rangesReversed c.ranges }

/-- `CoordRange.__init__` (ndcoords.py lines 299-328) for the no-argument
case (`ranges = []`) and the general set-of-pairs case.  (The remaining
case, exactly two scalar arguments, takes a different input type and is
not needed by any claim.)  Each assignment to `self.ranges` passes the
`Range` trait validation (`traitAssign`); the `reverse()` call mutates the
lists in place and bypasses it.  After the optional reversal, a nonempty
ranges list is cleaned (and hence trait-validated) a second time. -/
def coordRangeInit (rs : List (ℚ × ℚ)) (rev : Bool) : Option CoordRange :=
  match (if rs.isEmpty then some [] else (_cleanranges rs).map traitAssign) with
  | none => none
  | some r1 =>
      let r2 := if rev then rangesReversed r1 else r1
      match (if r2.isEmpty then some r2 else (_cleanranges r2).map traitAssign) with
      | none => none
      | some r3 => some ⟨r3, rev⟩

/-! ### Claim theorems: Coord basics -/

/-- Claim C1.  Constructing a Coord from input whose number of dimensions is
greater than 1 is claimed to fail with a ValueError.  In fact the guard
`if self.ndim > 1` in `Coord.__init__` reads the overridden `Coord.ndim`
property, which is the constant 1, so construction never fails: here a
2x2 input is accepted, its stored buffer keeps 2 dimensions, while the
`ndim` property reports 1. -/
theorem C1_ndim_guard_dead :
    coordInit [2, 2] [1, 2, 3, 4] none "" = .ok ⟨[2, 2], [1, 2, 3, 4], none, ""⟩ ∧
    (∀ shape buf labels title,
        coordInit shape buf labels title = .ok (ndarrayInit shape buf labels title)) ∧
    Coord.ndarray_ndim ⟨[2, 2], [1, 2, 3, 4], none, ""⟩ = 2 ∧
    Coord.ndim ⟨[2, 2], [1, 2, 3, 4], none, ""⟩ = 1 :=
  ⟨rfl, fun _ _ _ _ => rfl, rfl, rfl⟩

/-- Claim C2.  `_loc2index` on a date/time value is claimed to surface an
explicit "not implemented" failure.  In fact the datetime branch is the
stub `return None` of ndcoords.py line 210: for every Coord and every
datetime it returns `None` with no exception raised and no warning
emitted - a silent default, not a visible failure. -/
theorem C2_loc2index_datetime_silent_none :
    ∀ (c : Coord) (t : ℤ), _loc2index c (.datetime t) = .ok (none, false) :=
  fun _ _ => rfl

/-- Claim C7.  `CoordRange()` with zero arguments yields `nranges == 0`,
and this construction short-circuits to the empty list without ever
calling `_cleanranges`, which would index `ranges[0]` and raise
(`_cleanranges []` is an IndexError, modelled as `none`). -/
theorem C7_empty_coordrange :
    (∀ rev, ∃ cr, coordRangeInit [] rev = some cr ∧ cr.nranges = 0) ∧
    _cleanranges ([] : List (ℚ × ℚ)) = none := by
  refine ⟨fun rev => ⟨⟨[], rev⟩, ?_, rfl⟩, rfl⟩
  cases rev <;> rfl

/-- Claim C10.  Reading `Coord.uncertainty` returns an all-zeros array
with the shape of the data; assigning to it runs a `pass` body, leaving
the object unchanged, so a Coord can never carry a non-zero
uncertainty. -/
theorem C10_uncertainty_always_zero :
    ∀ (c : Coord) (u : List ℚ),
      Coord.uncertainty_set c u = c ∧
      (Coord.uncertainty c).1 = c._data_shape ∧
      (Coord.uncertainty c).2.length = c._data.length ∧
      (∀ x ∈ (Coord.uncertainty c).2, x = 0) ∧
      Coord.uncertainty (Coord.uncertainty_set c u) = Coord.uncertainty c := by
  intro c u
  refine ⟨rfl, rfl, by simp [Coord.uncertainty], ?_, rfl⟩
  intro x hx
  simp [Coord.uncertainty] at hx
  exact hx.2

/-- Claim C8.  `Coord.is_reversed` is true exactly when the lowercased
title contains the substring "wavenumber" or "ppm"; it does not depend on
the data at all, and the trailing statement
`return bool(self.data[0] > self.data[-1])` is unreachable (the first two
return statements already cover every path). -/
theorem C8_is_reversed_title_only (c : Coord) :
    (Coord.is_reversed c = true ↔
      (py_in "wavenumber".toList (pyLower c.title) = true ∨
       py_in "ppm".toList (pyLower c.title) = true)) ∧
    (∀ shape d, Coord.is_reversed ⟨shape, d, c._labels, c.title⟩ = Coord.is_reversed c) ∧
    firstReturn (is_reversed_returns c) = firstReturn ((is_reversed_returns c).take 2) := by
  refine ⟨?_, ?_, ?_⟩
  · cases h : (py_in "wavenumber".toList (pyLower c.title)
        || py_in "ppm".toList (pyLower c.title)) <;>
      simp_all [Coord.is_reversed, is_reversed_returns, firstReturn]
  · intro shape d
    cases h : (py_in "wavenumber".toList (pyLower c.title)
        || py_in "ppm".toList (pyLower c.title)) <;>
      simp_all [Coord.is_reversed, is_reversed_returns, firstReturn]
  · cases h : (py_in "wavenumber".toList (pyLower c.title)
        || py_in "ppm".toList (pyLower c.title)) <;>
      simp_all [is_reversed_returns, firstReturn]

/-! ### CoordRange normalization lemmas -/

lemma traitAssign_asc (l : List (ℚ × ℚ)) : ∀ p ∈ traitAssign l, p.1 ≤ p.2 := by
  intro p hp
  simp only [traitAssign, List.mem_map] at hp
  obtain ⟨q, _, rfl⟩ := hp
  unfold rangeValidate
  split
  · assumption
  · exact le_of_not_le (by assumption)

lemma traitAssign_id (l : List (ℚ × ℚ)) (h : ∀ p ∈ l, p.1 ≤ p.2) :
    traitAssign l = l := by
  induction l with
  | nil => rfl
  | cons p l ih =>
      have hp : p.1 ≤ p.2 := h p (by simp)
      simp only [traitAssign, List.map_cons]
      rw [show rangeValidate p = p from if_pos hp]
      have := ih (fun q hq => h q (by simp [hq]))
      simpa [traitAssign] using this

lemma sortedByKey_mem {l : List (ℚ × ℚ)} {p : ℚ × ℚ} :
    p ∈ sortedByKey l ↔ p ∈ l :=
  (List.perm_insertionSort keyLE l).mem_iff

lemma sortedByKey_sorted (l : List (ℚ × ℚ)) : (sortedByKey l).Sorted keyLE :=
  List.sorted_insertionSort keyLE l

lemma sortedByKey_eq_nil {l : List (ℚ × ℚ)} (h : sortedByKey l = []) : l = [] :=
  List.Perm.eq_nil ((List.perm_insertionSort keyLE l).symm.trans (h ▸ List.Perm.refl _))

/-- Invariants of the merge sweep: on an input whose pairs are all
ascending, all start at or after `last.1`, and are sorted by lower bound,
the sweep produces ascending pairs that are pairwise disjoint (each pair
ends strictly before the next begins) and all start at or after
`last.1`. -/
lemma mergeSweep_spec :
    ∀ (rest : List (ℚ × ℚ)) (last : ℚ × ℚ),
      last.1 ≤ last.2 →
      (∀ p ∈ rest, p.1 ≤ p.2) →
      (∀ p ∈ rest, last.1 ≤ p.1) →
      rest.Pairwise (fun p q => p.1 ≤ q.1) →
      ((∀ p ∈ mergeSweep last rest, p.1 ≤ p.2) ∧
       (mergeSweep last rest).Pairwise (fun p q => p.2 < q.1) ∧
       (∀ p ∈ mergeSweep last rest, last.1 ≤ p.1)) := by
  intro rest
  induction rest with
  | nil =>
      intro last hl _ _ _
      refine ⟨?_, by simp [mergeSweep], ?_⟩ <;> intro p hp <;>
        simp [mergeSweep] at hp <;> simp [hp, hl]
  | cons r rest ih =>
      intro last hl hasc hge hpw
      have hr_asc : r.1 ≤ r.2 := hasc r (by simp)
      have hrest_asc : ∀ p ∈ rest, p.1 ≤ p.2 := fun p hp => hasc p (by simp [hp])
      have hr_le : ∀ p ∈ rest, r.1 ≤ p.1 := (List.pairwise_cons.mp hpw).1
      have hpw_rest : rest.Pairwise (fun p q => p.1 ≤ q.1) :=
        (List.pairwise_cons.mp hpw).2
      by_cases h1 : r.1 ≤ last.2
      · by_cases h2 : r.2 ≥ last.2
        · have hrec := ih (last.1, r.2) (le_trans hl h2) hrest_asc
            (fun p hp => hge p (by simp [hp])) hpw_rest
          simpa [mergeSweep, h1, h2] using hrec
        · have hrec := ih last hl hrest_asc
            (fun p hp => hge p (by simp [hp])) hpw_rest
          simpa [mergeSweep, h1, h2] using hrec
      · have hlast_lt : last.2 < r.1 := lt_of_not_le h1
        have hrec := ih r hr_asc hrest_asc hr_le hpw_rest
        have hres : mergeSweep last (r :: rest) = last :: mergeSweep r rest := by
          simp [mergeSweep, h1]
        rw [hres]
        refine ⟨?_, ?_, ?_⟩
        · intro p hp
          rcases List.mem_cons.mp hp with h | h
          · exact h ▸ hl
          · exact hrec.1 p h
        · refine List.pairwise_cons.mpr ⟨?_, hrec.2.1⟩
          intro q hq
          exact lt_of_lt_of_le hlast_lt (hrec.2.2 q hq)
        · intro p hp
          rcases List.mem_cons.mp hp with h | h
          · exact h ▸ le_refl _
          · exact le_trans (hge r (by simp)) (hrec.2.2 p h)

/-- `_cleanranges` never raises on a nonempty input. -/
lemma cleanranges_ne_none (l : List (ℚ × ℚ)) (hne : l ≠ []) :
    ∃ c, _cleanranges l = some c := by
  unfold _cleanranges
  cases hs : sortedByKey l with
  | nil => exact absurd (sortedByKey_eq_nil hs) hne
  | cons h t => exact ⟨mergeSweep h t, rfl⟩

/-- On an all-ascending nonempty input, `_cleanranges` returns ascending
pairs that are pairwise disjoint. -/
lemma cleanranges_spec (l : List (ℚ × ℚ)) (hasc : ∀ p ∈ l, p.1 ≤ p.2)
    (hne : l ≠ []) :
    ∃ out, _cleanranges l = some out ∧
      (∀ p ∈ out, p.1 ≤ p.2) ∧ out.Pairwise (fun p q => p.2 < q.1) := by
  cases hs : sortedByKey l with
  | nil => exact absurd (sortedByKey_eq_nil hs) hne
  | cons h t =>
      have hmem : ∀ p ∈ h :: t, p ∈ l := by
        intro p hp
        exact sortedByKey_mem.mp (hs ▸ hp)
      have hasc2 : ∀ p ∈ h :: t, p.1 ≤ p.2 := fun p hp => hasc p (hmem p hp)
      have hsorted : (h :: t).Sorted keyLE := hs ▸ sortedByKey_sorted l
      have hkey : ∀ p ∈ h :: t, rangeKey p = p.1 := by
        intro p hp
        exact min_eq_left (hasc2 p hp)
      have hfst : (h :: t).Pairwise (fun p q => p.1 ≤ q.1) := by
        refine hsorted.imp_of_mem ?_
        intro p q hp hq hpq
        have := hpq
        unfold keyLE at this
        rw [hkey p hp, hkey q hq] at this
        exact this
      have hsw := mergeSweep_spec t h (hasc2 h (by simp))
        (fun p hp => hasc2 p (by simp [hp]))
        (List.pairwise_cons.mp hfst).1
        (List.pairwise_cons.mp hfst).2
      refine ⟨mergeSweep h t, ?_, hsw.1, hsw.2.1⟩
      unfold _cleanranges
      rw [hs]

/-- On every successful run of `CoordRange.__init__` with `reversed`
unset, the final ranges are ascending pairs, pairwise disjoint (each pair
ends strictly before the next begins), hence also sorted by lower
bound. -/
lemma coordRangeInit_false_spec :
    ∀ rs out, coordRangeInit rs false = some out →
      (∀ p ∈ out.ranges, p.1 ≤ p.2) ∧ out.ranges.Pairwise (fun p q => p.2 < q.1) := by
  intro rs out h
  cases rs with
  | nil =>
      have : out = ⟨[], false⟩ := by
        have h2 : some (⟨[], false⟩ : CoordRange) = some out := h ▸ rfl
        exact (Option.some.inj h2).symm
      simp [this]
  | cons r0 rs' =>
      obtain ⟨c1, hc1⟩ := cleanranges_ne_none (r0 :: rs') (by simp)
      unfold coordRangeInit at h
      rw [if_neg (by simp), hc1] at h
      simp only [Option.map_some', Bool.false_eq_true, if_false] at h
      by_cases he : (traitAssign c1).isEmpty
      · rw [if_pos he] at h
        have hout : out = ⟨traitAssign c1, false⟩ := (Option.some.inj h).symm
        have hnil : traitAssign c1 = [] := List.isEmpty_iff.mp he
        simp [hout, hnil]
      · have hasc1 : ∀ p ∈ traitAssign c1, p.1 ≤ p.2 := traitAssign_asc c1
        obtain ⟨out2, hout2, hasc2, hpw2⟩ :=
          cleanranges_spec (traitAssign c1) hasc1 (by simpa using he)
        rw [if_neg he, hout2] at h
        simp only [Option.map_some'] at h
        have hout : out = ⟨traitAssign out2, false⟩ := (Option.some.inj h).symm
        rw [traitAssign_id out2 hasc2] at hout
        rw [hout]
        exact ⟨hasc2, hpw2⟩

/-! ### Claim theorems: CoordRange -/

/-- Claim C3, counterexample.  `CoordRange((5,2),(1,3))` does not produce
the pairs `[[1,3],[2,5]]` claimed by the spec: the ordered pairs `[1,3]`
and `[2,5]` overlap, so the second normalization pass of `__init__` merges
them (into `[[1,5]]`, see `C3_normalization_sorted`). -/
theorem C3_counterexample :
    (coordRangeInit [((5:ℚ), 2), (1, 3)] false).map CoordRange.ranges ≠
      some [(1, 3), (2, 5)] := by
  decide

/-- Claim C3, amended.  CoordRange normalization internally orders each
pair ascending (when the reversed flag is false) and sorts the pairs by
lower bound - every successfully constructed non-reversed CoordRange has
ascending pairs sorted by lower bound - but overlapping pairs are then
merged: `CoordRange((5,2),(1,3))` yields the single pair `[[1,5]]`, not
`[[1,3],[2,5]]`. -/
theorem C3_normalization_sorted :
    (coordRangeInit [((5:ℚ), 2), (1, 3)] false).map CoordRange.ranges =
      some [(1, 5)] ∧
    (∀ rs out, coordRangeInit rs false = some out →
      (∀ p ∈ out.ranges, p.1 ≤ p.2) ∧
      out.ranges.Pairwise (fun p q => p.1 ≤ q.1)) := by
  constructor
  · decide
  · intro rs out h
    obtain ⟨hasc, hpw⟩ := coordRangeInit_false_spec rs out h
    refine ⟨hasc, hpw.imp_of_mem ?_⟩
    intro p q hp _ hlt
    exact le_trans (hasc p hp) (le_of_lt hlt)

/-- Witness for C3: the general part applied to the concrete construction
`CoordRange((5,2),(1,3))`, whose result is `[[1,5]]`. -/
theorem C3_witness :
    (∀ p ∈ (⟨[((1:ℚ), 5)], false⟩ : CoordRange).ranges, p.1 ≤ p.2) ∧
    List.Pairwise (fun p q : ℚ × ℚ => p.1 ≤ q.1)
      (⟨[((1:ℚ), 5)], false⟩ : CoordRange).ranges :=
  C3_normalization_sorted.2 [((5:ℚ), 2), (1, 3)] ⟨[(1, 5)], false⟩ (by decide)

/-- Claim C4, counterexample.  `CoordRange((1,3),(2,5), reversed=True)`
does not yield `[[5,2],[3,1]]`: the two pairs overlap and are merged, and
the final normalization pass re-validates every pair in ascending order,
undoing the `reverse()` call. -/
theorem C4_counterexample :
    (coordRangeInit [((1:ℚ), 3), (2, 5)] true).map CoordRange.ranges ≠
      some [(5, 2), (3, 1)] := by
  decide

/-- Claim C4, amended.  The `reverse()` operation itself does flip both
the endpoint order within every pair and the overall order of the pairs
(reversing the list and swapping each pair commute), but constructing
`CoordRange((1,3),(2,5), reversed=True)` yields `[[1,5]]`: the overlapping
pairs are merged, and the final `_cleanranges` pass runs after `reverse()`
and its trait assignment re-orders each pair ascending. -/
theorem C4_reverse_structure :
    (coordRangeInit [((1:ℚ), 3), (2, 5)] true).map CoordRange.ranges =
      some [(1, 5)] ∧
    (∀ c : CoordRange,
      (CoordRange.reverse c).ranges = c.ranges.reverse.map (fun r => (r.2, r.1))) := by
  constructor
  · decide
  · intro c
    simp [CoordRange.reverse, rangesReversed, List.map_reverse]

/-- Claim C6.  CoordRange normalization merges two overlapping pairs
(sorted so that `a ≤ c`; overlap meaning the next lower bound `c` does not
exceed the current upper bound `b`) into the single interval
`[a, max b d]`; the result of every non-reversed construction is pairwise
disjoint (each interval ends strictly before the next begins, a minimal
set of disjoint ascending intervals); in particular `(1,3)` and `(2,5)`
merge into `[1,5]`. -/
theorem C6_overlap_merged :
    (∀ a b c d : ℚ, a ≤ b → c ≤ d → a ≤ c → c ≤ b →
      coordRangeInit [(a, b), (c, d)] false = some ⟨[(a, max b d)], false⟩) ∧
    (coordRangeInit [((1:ℚ), 3), (2, 5)] false).map CoordRange.ranges =
      some [(1, 5)] ∧
    (∀ rs out, coordRangeInit rs false = some out →
      out.ranges.Pairwise (fun p q => p.2 < q.1)) := by
  refine ⟨?_, by decide, fun rs out h => (coordRangeInit_false_spec rs out h).2⟩
  intro a b c d hab hcd hac hcb
  have h1 : sortedByKey [(a, b), (c, d)] = [(a, b), (c, d)] := by
    simp [sortedByKey, List.insertionSort, List.orderedInsert, keyLE, rangeKey,
      min_eq_left hab, min_eq_left hcd, hac]
  have h2 : mergeSweep (a, b) [(c, d)] = [(a, max b d)] := by
    by_cases hge : b ≤ d
    · simp [mergeSweep, hcb, ge_iff_le, hge, max_eq_right hge]
    · have hdb : d ≤ b := le_of_not_le hge
      simp [mergeSweep, hcb, ge_iff_le, hge, max_eq_left hdb]
  have h3 : _cleanranges [(a, b), (c, d)] = some [(a, max b d)] := by
    unfold _cleanranges
    rw [h1]
    simp [h2]
  have hmax : a ≤ max b d := le_trans hab (le_max_left _ _)
  have h4 : traitAssign [(a, max b d)] = [(a, max b d)] := by
    refine traitAssign_id _ ?_
    intro p hp
    simp at hp
    simp [hp, hmax]
  have h5 : sortedByKey [(a, max b d)] = [(a, max b d)] := by
    simp [sortedByKey, List.insertionSort, List.orderedInsert]
  have h6 : _cleanranges [(a, max b d)] = some [(a, max b d)] := by
    unfold _cleanranges
    rw [h5]
    simp [mergeSweep]
  unfold coordRangeInit
  rw [if_neg (by simp), h3]
  simp [h4, h6]

/-- Witness for C6: the merge theorem applied at `a=1, b=3, c=2, d=5`. -/
theorem C6_witness :
    coordRangeInit [((1:ℚ), 3), (2, 5)] false = some ⟨[(1, max (3:ℚ) 5)], false⟩ :=
  C6_overlap_merged.1 1 3 2 5 (by norm_num) (by norm_num) (by norm_num) (by norm_num)

/-! ### Lookup lemmas for _loc2index -/

lemma npAbs_eq_abs (x : ℚ) : npAbs x = |x| := by
  unfold npAbs
  split
  · exact (abs_of_neg (by assumption)).symm
  · exact (abs_of_nonneg (le_of_not_lt (by assumption))).symm

lemma argwhereFirst_some_iff (ls : List String) (s : String) :
    ∀ i, (argwhereFirst ls s = some i ↔
      (ls[i]? = some s ∧ ∀ j, j < i → ls[j]? ≠ some s)) := by
  induction ls with
  | nil => intro i; simp [argwhereFirst]
  | cons l rest ih =>
      intro i
      by_cases hl : l = s
      · cases i with
        | zero => simp [argwhereFirst, hl]
        | succ j =>
            simp only [argwhereFirst, hl, if_pos]
            constructor
            · intro h
              exact absurd (Option.some.inj h) (by omega)
            · intro ⟨_, hall⟩
              exact absurd (hall 0 (by omega)) (by simp [hl])
      · cases i with
        | zero =>
            simp only [argwhereFirst, hl, if_false, List.getElem?_cons_zero]
            constructor
            · intro h
              rcases ho : argwhereFirst rest s with _ | k <;> rw [ho] at h <;>
                simp at h
            · intro ⟨hv, _⟩
              exact absurd (Option.some.inj hv) hl
        | succ j =>
            simp only [argwhereFirst, hl, if_false, List.getElem?_cons_succ]
            constructor
            · intro h
              have hrest : argwhereFirst rest s = some j := by
                rcases ho : argwhereFirst rest s with _ | k <;> rw [ho] at h <;>
                  simp at h
                simp [h]
              obtain ⟨hv, hall⟩ := (ih j).mp hrest
              refine ⟨hv, ?_⟩
              intro k hk
              cases k with
              | zero => simp [hl]
              | succ k2 =>
                  simp only [List.getElem?_cons_succ]
                  exact hall k2 (by omega)
            · intro ⟨hv, hall⟩
              have hall2 : ∀ k, k < j → rest[k]? ≠ some s := by
                intro k hk
                have := hall (k + 1) (by omega)
                simpa using this
              have := (ih j).mpr ⟨hv, hall2⟩
              rw [this]
              rfl

lemma argwhereFirst_none_iff (ls : List String) (s : String) :
    argwhereFirst ls s = none ↔ ∀ l ∈ ls, l ≠ s := by
  induction ls with
  | nil => simp [argwhereFirst]
  | cons l rest ih =>
      by_cases hl : l = s
      · simp [argwhereFirst, hl]
      · simp only [argwhereFirst, hl, if_false]
        constructor
        · intro h
          rcases ho : argwhereFirst rest s with _ | k
          · intro x hx
            rcases List.mem_cons.mp hx with h2 | h2
            · exact h2 ▸ hl
            · exact (ih.mp ho) x h2
          · rw [ho] at h
            simp at h
        · intro h
          have : argwhereFirst rest s = none :=
            ih.mpr (fun x hx => h x (by simp [hx]))
          simp [this]

lemma minWithIdx_spec (rest : List ℚ) :
    ∀ x : ℚ,
      (minWithIdx x rest).2 < rest.length + 1 ∧
      (x :: rest).getD (minWithIdx x rest).2 0 = (minWithIdx x rest).1 ∧
      (∀ k, k < rest.length + 1 → (minWithIdx x rest).1 ≤ (x :: rest).getD k 0) ∧
      (∀ k, k < (minWithIdx x rest).2 → (minWithIdx x rest).1 < (x :: rest).getD k 0) := by
  induction rest with
  | nil =>
      intro x
      refine ⟨by simp [minWithIdx], by simp [minWithIdx], ?_, by simp [minWithIdx]⟩
      intro k hk
      simp [Nat.lt_one_iff] at hk
      subst hk
      simp [minWithIdx]
  | cons y rest ih =>
      intro x
      obtain ⟨ih1, ih2, ih3, ih4⟩ := ih y
      by_cases hx : x ≤ (minWithIdx y rest).1
      · have hres : minWithIdx x (y :: rest) = (x, 0) := by
          simp [minWithIdx, hx]
        refine ⟨by simp [hres], by simp [hres], ?_, by simp [hres]⟩
        intro k hk
        cases k with
        | zero => simp [hres]
        | succ k2 =>
            rw [hres]
            simp only [List.getD_cons_succ]
            exact le_trans hx (ih3 k2 (by simpa using hk))
      · have hlt : (minWithIdx y rest).1 < x := lt_of_not_le hx
        have hres : minWithIdx x (y :: rest) =
            ((minWithIdx y rest).1, (minWithIdx y rest).2 + 1) := by
          simp [minWithIdx, hx]
        refine ⟨?_, ?_, ?_, ?_⟩
        · rw [hres]
          simpa using ih1
        · rw [hres]
          simpa using ih2
        · intro k hk
          cases k with
          | zero => simp [hres, le_of_lt hlt]
          | succ k2 =>
              rw [hres]
              simp only [List.getD_cons_succ]
              exact ih3 k2 (by simpa using hk)
        · intro k hk
          cases k with
          | zero => simp [hres, hlt]
          | succ k2 =>
              rw [hres] at hk ⊢
              simp only [List.getD_cons_succ]
              exact ih4 k2 (by simpa using hk)

lemma argmin_spec (l : List ℚ) (hne : l ≠ []) :
    argmin l < l.length ∧
    (∀ k, k < l.length → l.getD (argmin l) 0 ≤ l.getD k 0) ∧
    (∀ k, k < argmin l → l.getD (argmin l) 0 < l.getD k 0) := by
  cases l with
  | nil => exact absurd rfl hne
  | cons x rest =>
      obtain ⟨h1, h2, h3, h4⟩ := minWithIdx_spec rest x
      refine ⟨by simpa [argmin] using h1, ?_, ?_⟩
      · intro k hk
        have := h3 k (by simpa using hk)
        rw [← h2] at this
        exact this
      · intro k hk
        have := h4 k (by simpa [argmin] using hk)
        rw [← h2] at this
        exact this

lemma npMax_spec (l : List ℚ) (mx : ℚ) (h : npMax l = some mx) :
    mx ∈ l ∧ ∀ b ∈ l, b ≤ mx := by
  cases l with
  | nil => simp [npMax] at h
  | cons x rest =>
      have hfv : rest.foldl max x = mx := Option.some.inj (by simpa [npMax] using h)
      clear h
      induction rest generalizing x with
      | nil =>
          simp at hfv
          simp [hfv.symm]
      | cons y rest ih =>
          have hfv2 : rest.foldl max (max x y) = mx := by simpa using hfv
          obtain ⟨hmem, hub⟩ := ih (max x y) hfv2
          constructor
          · rcases List.mem_cons.mp hmem with h2 | h2
            · rcases max_choice x y with hc | hc <;> rw [hc] at h2 <;> simp [h2]
            · simp [List.mem_cons, h2]
          · intro b hb
            rcases List.mem_cons.mp hb with h2 | h2
            · exact h2 ▸ le_trans (le_max_left x y) (hub _ (by simp))
            · rcases List.mem_cons.mp h2 with h3 | h3
              · exact h3 ▸ le_trans (le_max_right x y) (hub _ (by simp))
              · exact hub b (by simp [h3])

lemma npMin_spec (l : List ℚ) (mn : ℚ) (h : npMin l = some mn) :
    mn ∈ l ∧ ∀ b ∈ l, mn ≤ b := by
  cases l with
  | nil => simp [npMin] at h
  | cons x rest =>
      have hfv : rest.foldl min x = mn := Option.some.inj (by simpa [npMin] using h)
      clear h
      induction rest generalizing x with
      | nil =>
          simp at hfv
          simp [hfv.symm]
      | cons y rest ih =>
          have hfv2 : rest.foldl min (min x y) = mn := by simpa using hfv
          obtain ⟨hmem, hlb⟩ := ih (min x y) hfv2
          constructor
          · rcases List.mem_cons.mp hmem with h2 | h2
            · rcases min_choice x y with hc | hc <;> rw [hc] at h2 <;> simp [h2]
            · simp [List.mem_cons, h2]
          · intro b hb
            rcases List.mem_cons.mp hb with h2 | h2
            · exact h2 ▸ le_trans (hlb _ (by simp)) (min_le_left x y)
            · rcases List.mem_cons.mp h2 with h3 | h3
              · exact h3 ▸ le_trans (hlb _ (by simp)) (min_le_right x y)
              · exact hlb b (by simp [h3])

lemma getD_map_npAbs (data : List ℚ) (q : ℚ) :
    ∀ k, k < data.length →
      (data.map (fun x => npAbs (x - q))).getD k 0 = npAbs (data.getD k 0 - q) := by
  induction data with
  | nil => intro k hk; simp at hk
  | cons x rest ih =>
      intro k hk
      cases k with
      | zero => simp
      | succ k2 =>
          simp only [List.map_cons, List.getD_cons_succ]
          exact ih k2 (by simpa using hk)

/-! ### Claim theorems: _loc2index -/

/-- Claim C9.  On a labeled Coord, `_loc2index` with a textual location
performs an exact-match search over the labels and returns the index of
the first matching label (no warning emitted); when no label matches it
raises the IndexError "Could not find this label" instead of returning a
default index. -/
theorem C9_label_lookup (c : Coord) (s : String) (ls : List String)
    (h : c._labels = some ls) :
    (∀ i, _loc2index c (.str s) = .ok (some i, false) ↔
      (ls[i]? = some s ∧ ∀ j, j < i → ls[j]? ≠ some s)) ∧
    ((∀ l ∈ ls, l ≠ s) →
      _loc2index c (.str s) = .error ("Could not find this label: " ++ s)) := by
  obtain ⟨sh, d, lb, t⟩ := c
  simp only at h
  subst h
  constructor
  · intro i
    rcases ha : argwhereFirst ls s with _ | k
    · simp only [_loc2index, ha]
      constructor
      · intro h2
        exact absurd h2 (by simp)
      · intro ⟨hv, hall⟩
        have h3 := (argwhereFirst_some_iff ls s i).mpr ⟨hv, hall⟩
        rw [ha] at h3
        exact absurd h3 (by simp)
    · simp only [_loc2index, ha]
      constructor
      · intro h2
        have hk : k = i := by simpa using h2
        exact (argwhereFirst_some_iff ls s i).mp (hk ▸ ha)
      · intro hchar
        have h3 := (argwhereFirst_some_iff ls s i).mpr hchar
        rw [ha] at h3
        have hk : k = i := by simpa using h3
        rw [hk]
  · intro hall
    have hnone := (argwhereFirst_none_iff ls s).mpr hall
    simp only [_loc2index, hnone]

/-- Witness for C9: on labels `["a", "b"]`, looking up `"b"` returns
index 1 with no warning. -/
theorem C9_witness :
    _loc2index ⟨[2], [0, 1], some ["a", "b"], "t"⟩ (.str "b") = .ok (some 1, false) :=
  ((C9_label_lookup ⟨[2], [0, 1], some ["a", "b"], "t"⟩ "b" ["a", "b"] rfl).1 1).mpr
    (by decide)

/-- Claim C5.  For numeric data and a numeric `loc` inside
`[min(data), max(data)]`, `_loc2index` returns the index minimizing
`abs(data[i] - loc)` (first occurrence on ties: every strictly earlier
index has a strictly larger distance) and emits no warning; for a numeric
`loc` outside the domain it does not fail: it still returns the nearest
boundary index (the first index holding the max when `loc` is above, the
first index holding the min when `loc` is below) and emits the boundary
warning. -/
theorem C5_loc2index_nearest (c : Coord) (q mn mx : ℚ)
    (hmn : npMin c._data = some mn) (hmx : npMax c._data = some mx) :
    ((mn ≤ q ∧ q ≤ mx) →
      ∃ i, _loc2index c (.num q) = .ok (some i, false) ∧
        i < c._data.length ∧
        (∀ j, j < c._data.length →
          |c._data.getD i 0 - q| ≤ |c._data.getD j 0 - q|) ∧
        (∀ j, j < i → |c._data.getD i 0 - q| < |c._data.getD j 0 - q|)) ∧
    ((mx < q ∨ q < mn) →
      ∃ i, _loc2index c (.num q) = .ok (some i, true) ∧
        i < c._data.length ∧
        (mx < q → c._data.getD i 0 = mx ∧ ∀ j, j < i → c._data.getD j 0 ≠ mx) ∧
        (q < mn → c._data.getD i 0 = mn ∧ ∀ j, j < i → c._data.getD j 0 ≠ mn)) := by
  have hne : c._data ≠ [] := by
    intro h0
    rw [h0] at hmx
    simp [npMax] at hmx
  have hmne : c._data.map (fun x => npAbs (x - q)) ≠ [] := by
    intro h0
    exact hne (by simpa using h0)
  obtain ⟨hilt, himin, hifirst⟩ :=
    argmin_spec (c._data.map fun x => npAbs (x - q)) hmne
  have hlen : (c._data.map fun x => npAbs (x - q)).length = c._data.length := by
    simp
  rw [hlen] at hilt
  have hmini : ∀ j, j < c._data.length →
      npAbs (c._data.getD (argmin (c._data.map fun x => npAbs (x - q))) 0 - q) ≤
        npAbs (c._data.getD j 0 - q) := by
    intro j hj
    have h2 := himin j (by rwa [hlen])
    rwa [getD_map_npAbs _ _ _ hilt, getD_map_npAbs _ _ j hj] at h2
  have hstrict : ∀ j, j < argmin (c._data.map fun x => npAbs (x - q)) →
      npAbs (c._data.getD (argmin (c._data.map fun x => npAbs (x - q))) 0 - q) <
        npAbs (c._data.getD j 0 - q) := by
    intro j hj
    have h2 := hifirst j hj
    rwa [getD_map_npAbs _ _ _ hilt, getD_map_npAbs _ _ j (lt_trans hj hilt)] at h2
  have heval : _loc2index c (.num q) =
      .ok (some (argmin (c._data.map fun x => npAbs (x - q))),
           decide (q > mx) || decide (q < mn)) := by
    simp only [_loc2index, hmx, hmn]
  constructor
  · intro ⟨hq1, hq2⟩
    have hwarn : (decide (q > mx) || decide (q < mn)) = false := by
      simp only [Bool.or_eq_false_iff, decide_eq_false_iff_not, not_lt]
      exact ⟨hq2, hq1⟩
    refine ⟨argmin (c._data.map fun x => npAbs (x - q)),
      by rw [heval, hwarn], hilt, ?_, ?_⟩
    · intro j hj
      have h2 := hmini j hj
      rwa [npAbs_eq_abs, npAbs_eq_abs] at h2
    · intro j hj
      have h2 := hstrict j hj
      rwa [npAbs_eq_abs, npAbs_eq_abs] at h2
  · intro hcase
    have hwarn : (decide (q > mx) || decide (q < mn)) = true := by
      rcases hcase with h | h <;> simp [h]
    refine ⟨argmin (c._data.map fun x => npAbs (x - q)),
      by rw [heval, hwarn], hilt, ?_, ?_⟩
    · intro hgt
      obtain ⟨hmxmem, hmxub⟩ := npMax_spec _ _ hmx
      obtain ⟨jm, hjm, hjmv⟩ := List.mem_iff_getElem.mp hmxmem
      have hjmD : c._data.getD jm 0 = mx := by
        rw [List.getD_eq_getElem _ _ hjm]
        exact hjmv
      have hub : ∀ j, j < c._data.length → c._data.getD j 0 ≤ mx := by
        intro j hj
        rw [List.getD_eq_getElem _ _ hj]
        exact hmxub _ (List.getElem_mem _)
      have habs : ∀ j, j < c._data.length →
          npAbs (c._data.getD j 0 - q) = q - c._data.getD j 0 := by
        intro j hj
        have h3 : c._data.getD j 0 - q < 0 := by
          have := hub j hj
          linarith
        unfold npAbs
        rw [if_pos h3]
        ring
      have hival : c._data.getD (argmin (c._data.map fun x => npAbs (x - q))) 0 = mx := by
        have h4 := hmini jm hjm
        rw [habs _ hilt, habs _ hjm, hjmD] at h4
        exact le_antisymm (hub _ hilt) (by linarith)
      refine ⟨hival, ?_⟩
      intro j hj
      have h5 := hstrict j hj
      rw [habs _ hilt, habs _ (lt_trans hj hilt), hival] at h5
      intro hc
      rw [hc] at h5
      linarith
    · intro hlt
      obtain ⟨hmnmem, hmnlb⟩ := npMin_spec _ _ hmn
      obtain ⟨jm, hjm, hjmv⟩ := List.mem_iff_getElem.mp hmnmem
      have hjmD : c._data.getD jm 0 = mn := by
        rw [List.getD_eq_getElem _ _ hjm]
        exact hjmv
      have hlb : ∀ j, j < c._data.length → mn ≤ c._data.getD j 0 := by
        intro j hj
        rw [List.getD_eq_getElem _ _ hj]
        exact hmnlb _ (List.getElem_mem _)
      have habs : ∀ j, j < c._data.length →
          npAbs (c._data.getD j 0 - q) = c._data.getD j 0 - q := by
        intro j hj
        have h3 : ¬(c._data.getD j 0 - q < 0) := by
          have := hlb j hj
          linarith
        unfold npAbs
        rw [if_neg h3]
      have hival : c._data.getD (argmin (c._data.map fun x => npAbs (x - q))) 0 = mn := by
        have h4 := hmini jm hjm
        rw [habs _ hilt, habs _ hjm, hjmD] at h4
        exact le_antisymm (by linarith) (hlb _ hilt)
      refine ⟨hival, ?_⟩
      intro j hj
      have h5 := hstrict j hj
      rw [habs _ hilt, habs _ (lt_trans hj hilt), hival] at h5
      intro hc
      rw [hc] at h5
      linarith

/-- Witness for C5: on data `[1, 3, 7]` the in-domain location 2 resolves
to index 0 (distance 1, tied with index 1 but first occurrence wins) with
no warning. -/
theorem C5_witness :
    ∃ i, _loc2index ⟨[3], [1, 3, 7], none, "t"⟩ (.num 2) = .ok (some i, false) ∧
      i < ([1, 3, 7] : List ℚ).length ∧
      (∀ j, j < ([1, 3, 7] : List ℚ).length →
        |([1, 3, 7] : List ℚ).getD i 0 - 2| ≤ |([1, 3, 7] : List ℚ).getD j 0 - 2|) ∧
      (∀ j, j < i →
        |([1, 3, 7] : List ℚ).getD i 0 - 2| < |([1, 3, 7] : List ℚ).getD j 0 - 2|) :=
  (C5_loc2index_nearest ⟨[3], [1, 3, 7], none, "t"⟩ 2 1 7
    (by norm_num [npMin, min_def]) (by norm_num [npMax, max_def])).1
    (by norm_num)

end SpChem
